import Mathlib

/-!
Verification of the s3-client CLI (src/main.go) against its specification.

The program is a thin command-line client over an S3 SDK.  The embedding
below translates, over lists of characters (Go strings), the string and
path manipulation the program performs (the Go standard library functions
it calls, with path/filepath taken at its unix semantics: the path
separator is the forward slash), and models each of the three operations
(upload, list, delete) as a pure function from an environment describing
the outside world (local file system, remote store responses, stdin) to
an exit code, the list of remote calls issued, and the lines printed.
The SDK calls themselves (HeadObject, PutObject, DeleteObject, the
ObjectNotExists waiter, the ListObjectsV2 paginator) are external
collaborators; each is modelled by its documented contract: the waiter
returns without error only once HeadObject reports the object absent,
and the paginator yields the bucket's objects page by page.
-/

namespace S3Client

/-! ## Go string primitives (package strings) -/

/-- strings.TrimLeft(s, "/"): remove every leading '/' character. -/
def trimLeftSlashes (s : List Char) : List Char :=
  s.dropWhile (fun c => c == '/')

/-- Remove trailing characters satisfying p (used for strings.TrimRight
and the right half of strings.TrimSpace). -/
def dropRightWhile (p : Char → Bool) : List Char → List Char
  | [] => []
  | c :: rest =>
    match dropRightWhile p rest with
    | [] => if p c then [] else [c]
    | r => c :: r

/-- strings.TrimRight(s, "/"): remove every trailing '/' character. -/
def trimRightSlashes (s : List Char) : List Char :=
  dropRightWhile (fun c => c == '/') s

/-- strings.Trim(s, "/"): remove every leading and trailing '/'. -/
def trimSlashes (s : List Char) : List Char :=
  trimRightSlashes (trimLeftSlashes s)

/-- strings.TrimPrefix(s, "/"): remove one leading "/" when present. -/
def trimPrefixSlash (s : List Char) : List Char :=
  match s with
  | '/' :: rest => rest
  | other => other

/-- unicode.IsSpace over the Latin-1 range (the full Unicode space table
is elided; the claims only involve these characters). -/
def isSpaceChar (c : Char) : Bool :=
  c == ' ' || c == '\t' || c == '\n' || c == Char.ofNat 11 ||
    c == Char.ofNat 12 || c == '\r' || c == Char.ofNat 133 || c == Char.ofNat 160

/-- strings.TrimSpace: remove leading and trailing white space. -/
def goTrimSpace (s : List Char) : List Char :=
  dropRightWhile isSpaceChar (s.dropWhile isSpaceChar)

/-- strings.ToLower on one character (ASCII range; the Unicode case
table beyond ASCII is elided, the claims only involve ASCII input). -/
def goToLowerChar (c : Char) : Char :=
  if 'A' ≤ c ∧ c ≤ 'Z' then Char.ofNat (c.toNat + 32) else c

/-- strings.ToLower. -/
def goToLower (s : List Char) : List Char :=
  s.map goToLowerChar

/-! ## path/filepath (unix), as called by main.go -/

/-- filepath.Separator on unix. -/
def separator : Char := '/'

/-- Split a path into its '/'-separated components (helper for Clean). -/
def splitSlash : List Char → List (List Char)
  | [] => [[]]
  | c :: rest =>
    if c == '/' then [] :: splitSlash rest
    else
      match splitSlash rest with
      | [] => [[c]]
      | g :: gs => (c :: g) :: gs

/-- The path component "..". -/
def dotdot : List Char := ['.', '.']

/-- One step of filepath.Clean: process one component against the stack
of components kept so far (stack head = innermost component). -/
def cleanStep (rooted : Bool) (stack : List (List Char)) (comp : List Char) :
    List (List Char) :=
  if comp = [] ∨ comp = ['.'] then stack
  else if comp = dotdot then
    match stack with
    | [] => if rooted then [] else [dotdot]
    | top :: rest => if top = dotdot then dotdot :: top :: rest else rest
  else comp :: stack

/-- Join components with '/' (helper for Clean). -/
def joinSlash : List (List Char) → List Char
  | [] => []
  | [x] => x
  | x :: y :: rest => x ++ '/' :: joinSlash (y :: rest)

/-- filepath.Clean on unix: shortest lexically equivalent path — drop
empty and "." components, resolve ".." against preceding components
(".." at the root is dropped, ".." leading a relative path is kept),
returning "." for an emptied relative path. -/
def clean (s : List Char) : List Char :=
  match s with
  | [] => ['.']
  | c :: _ =>
    let rooted := c == '/'
    let comps := (splitSlash s).foldl (cleanStep rooted) []
    let body := joinSlash comps.reverse
    if rooted then '/' :: body
    else if body = [] then ['.'] else body

/-- filepath.Join of two elements: the first nonempty element onward,
joined with the separator and cleaned; "" when both are empty. -/
def filepathJoin (a b : List Char) : List Char :=
  if a = [] then (if b = [] then [] else clean b)
  else clean (a ++ '/' :: b)

/-- filepath.ToSlash: replace each separator with '/' (the identity on
unix, written as the source has it). -/
def toSlash (s : List Char) : List Char :=
  s.map (fun c => if c == separator then '/' else c)

/-! ## The object key and return URL (main.go lines 114-120 and 153) -/

/-- The object key the upload computes from the -directory flag and the
opened file's base name: key := fileInfo.Name(); if directory is given,
key = filepath.Join(strings.Trim(directory, "/"), key); finally
filepath.ToSlash. -/
def computeKey (directory baseName : List Char) : List Char :=
  let key := baseName
  let key := if directory = [] then key else filepathJoin (trimSlashes directory) key
  toSlash key

/-- The base name os.File.Stat().Name() reports for an opened regular
file: the last path component, which is nonempty, contains no '/', and
is neither "." nor "..". -/
def validBaseName (b : List Char) : Prop :=
  b ≠ [] ∧ '/' ∉ b ∧ b ≠ ['.'] ∧ b ≠ dotdot

instance (b : List Char) : Decidable (validBaseName b) := by
  unfold validBaseName; infer_instance

/-- The reported URL (main.go line 153):
fmt.Sprintf("%s/%s", strings.TrimRight(returnurl, "/"), strings.TrimLeft(key, "/")). -/
def fullURL (returnurl key : List Char) : List Char :=
  trimRightSlashes returnurl ++ '/' :: trimLeftSlashes key

/-! ## The operations as functions over an explicit outside world

Remote calls and the interactive prompt are recorded as events, in the
order the program performs them; printed lines are collected in order.
The SDK transport is an oracle in the environment: whether each remote
call returns an error, what the remote store holds, what stdin says. -/

/-- One observable action: a remote call issued through the SDK, or the
blocking read of the overwrite confirmation from stdin. -/
inductive Event where
  | headObject (bucket key : List Char)
  | prompt
  | putObject (bucket key : List Char)
  | deleteObject (bucket key : List Char)
  | waitNotExists (bucket key : List Char)
  | listPage (bucket : List Char) (idx : Nat)
deriving DecidableEq

/-- What one invocation produces: the process exit code, the events in
order, and the lines printed to standard output. -/
structure RunResult where
  exitCode : Nat
  events : List Event
  output : List (List Char)
deriving DecidableEq

/-- What HeadObject reports: err == nil exactly when the object is
present; a missing object and a transport failure both surface as a
non-nil err, which main.go does not tell apart. -/
inductive HeadResult where
  | present
  | absent
  | checkError
deriving DecidableEq

/-- The world the upload path of main (lines 98-155) consults: the local
file system (os.Stat, os.Open, the opened file's base name), the remote
HeadObject and PutObject outcomes, and the stdin line the prompt reads. -/
structure UploadEnv where
  statExists : Bool
  openOk : Bool
  openErrText : List Char
  baseName : List Char
  head : HeadResult
  putOk : Bool
  putErrText : List Char
  stdinLine : List Char
deriving DecidableEq

/-- "File does not exist: %s". -/
def fileNotExistMsg (p : List Char) : List Char :=
  "File does not exist: ".toList ++ p

/-- "Error opening file: %s". -/
def openErrMsg (t : List Char) : List Char :=
  "Error opening file: ".toList ++ t

/-- "The file already exists. Overwrite? [y/n] > ". -/
def promptMsg : List Char :=
  "The file already exists. Overwrite? [y/n] > ".toList

/-- "Upload cancelled.". -/
def uploadCancelledMsg : List Char :=
  "Upload cancelled.".toList

/-- "Error uploading file to S3: %s". -/
def uploadErrMsg (t : List Char) : List Char :=
  "Error uploading file to S3: ".toList ++ t

/-- "Uploaded file: %s" (verbose). -/
def verboseUploadedLine (p : List Char) : List Char :=
  "Uploaded file: ".toList ++ p

/-- "Endpoint: %s" (verbose). -/
def verboseEndpointLine (e : List Char) : List Char :=
  "Endpoint: ".toList ++ e

/-- "Successfully uploaded. File URL: %s". -/
def uploadedMsg (url : List Char) : List Char :=
  "Successfully uploaded. File URL: ".toList ++ url

/-- The overwrite confirmation test (main.go line 131): the response is
affirmative exactly when strings.ToLower(strings.TrimSpace(response))
equals "y". -/
def isAffirmative (response : List Char) : Bool :=
  goToLower (goTrimSpace response) == ['y']

/-- The tail of the upload after the overwrite policy: the PutObject
call (main.go lines 137-154), its error path, the verbose lines, and
the reported URL. -/
def uploadPut (env : UploadEnv) (bucket key filePath returnurl endpoint : List Char)
    (verbose : Bool) (evs : List Event) (outPre : List (List Char)) : RunResult :=
  let evs2 := evs ++ [Event.putObject bucket key]
  if env.putOk = false then
    { exitCode := 1, events := evs2, output := outPre ++ [uploadErrMsg env.putErrText] }
  else
    { exitCode := 0, events := evs2,
      output := outPre ++
        (if verbose then [verboseUploadedLine filePath, verboseEndpointLine endpoint] else []) ++
        [uploadedMsg (fullURL returnurl key)] }

/-- The upload path of main (lines 102-155): stat the local file, open
it, compute the key, HeadObject, the overwrite prompt when the object
is present and -overwrite is not set, then PutObject. -/
def uploadRun (env : UploadEnv) (bucket directory filePath returnurl endpoint : List Char)
    (overwrite verbose : Bool) : RunResult :=
  if env.statExists = false then
    { exitCode := 1, events := [], output := [fileNotExistMsg filePath] }
  else if env.openOk = false then
    { exitCode := 1, events := [], output := [openErrMsg env.openErrText] }
  else
    let key := computeKey directory env.baseName
    if env.head = HeadResult.present ∧ overwrite = false then
      if isAffirmative env.stdinLine = false then
        { exitCode := 0, events := [Event.headObject bucket key, Event.prompt],
          output := [promptMsg, uploadCancelledMsg] }
      else
        uploadPut env bucket key filePath returnurl endpoint verbose
          [Event.headObject bucket key, Event.prompt] [promptMsg]
    else
      uploadPut env bucket key filePath returnurl endpoint verbose
        [Event.headObject bucket key] []

/-! ## The delete operation (deleteS3File, main.go lines 175-198) -/

/-- The transport outcomes the delete path can meet: whether DeleteObject
returns an error, and whether the ObjectNotExists waiter fails for a
reason of its own (timeout, transport) even once the object is gone. -/
structure DeleteEnv where
  deleteOk : Bool
  deleteErrText : List Char
  waitOk : Bool
  waitErrText : List Char
deriving DecidableEq

/-- The remote bucket contents, as the set of keys present. -/
structure Store where
  objects : List (List Char)
deriving DecidableEq

/-- "Error deleting file: %s". -/
def deleteErrMsg (t : List Char) : List Char :=
  "Error deleting file: ".toList ++ t

/-- "Error waiting for file deletion: %s". -/
def waitErrMsg (t : List Char) : List Char :=
  "Error waiting for file deletion: ".toList ++ t

/-- "Successfully deleted file: %s". -/
def deleteSuccessMsg (k : List Char) : List Char :=
  "Successfully deleted file: ".toList ++ k

/-- deleteS3File: strip one leading "/", issue DeleteObject (a
successful call removes the key from the store), then wait with the
ObjectNotExists waiter.  The waiter is the SDK's: it returns nil only
once HeadObject reports the object absent, and can also fail on its own
(timeout, transport), which waitOk = false models.  Success is printed
only after the waiter returns nil. -/
def deleteRun (env : DeleteEnv) (store : Store) (bucket filePath : List Char) :
    RunResult × Store :=
  let key := trimPrefixSlash filePath
  if env.deleteOk = false then
    ({ exitCode := 1, events := [Event.deleteObject bucket key],
       output := [deleteErrMsg env.deleteErrText] }, store)
  else
    let store1 : Store := ⟨store.objects.filter (fun k => !(k == key))⟩
    let evs := [Event.deleteObject bucket key, Event.waitNotExists bucket key]
    if key ∈ store1.objects ∨ env.waitOk = false then
      ({ exitCode := 1, events := evs, output := [waitErrMsg env.waitErrText] }, store1)
    else
      ({ exitCode := 0, events := evs, output := [deleteSuccessMsg key] }, store1)

/-! ## The list operation (listBucketFiles, main.go lines 157-173) -/

/-- A last-modified timestamp, already in the fields the Go format
string "2006-01-02 15:04:05" renders. -/
structure Timestamp where
  year : Nat
  month : Nat
  day : Nat
  hour : Nat
  minute : Nat
  second : Nat
deriving DecidableEq

/-- Decimal digits of a natural number. -/
def natToChars (n : Nat) : List Char :=
  Nat.toDigits 10 n

/-- Zero-pad on the left to the given width. -/
def padZero (width : Nat) (s : List Char) : List Char :=
  List.replicate (width - s.length) '0' ++ s

/-- time.Time.Format("2006-01-02 15:04:05"): four-digit year, two-digit
month, day, hour, minute, second, zero-padded. -/
def formatTimestamp (t : Timestamp) : List Char :=
  padZero 4 (natToChars t.year) ++ '-' :: padZero 2 (natToChars t.month) ++
    '-' :: padZero 2 (natToChars t.day) ++ ' ' :: padZero 2 (natToChars t.hour) ++
    ':' :: padZero 2 (natToChars t.minute) ++ ':' :: padZero 2 (natToChars t.second)

/-- One object of a ListObjectsV2 page: key, size in bytes, last
modified. -/
structure ObjMeta where
  key : List Char
  size : Int
  lastModified : Timestamp
deriving DecidableEq

/-- %d of an int64. -/
def intToChars (n : Int) : List Char :=
  if n < 0 then '-' :: natToChars n.natAbs else natToChars n.toNat

/-- "- %s (Size: %d bytes, Last modified: %s)" for one object. -/
def entryLine (m : ObjMeta) : List Char :=
  "- ".toList ++ m.key ++ " (Size: ".toList ++ intToChars m.size ++
    " bytes, Last modified: ".toList ++ formatTimestamp m.lastModified ++ [')']

/-- "Error listing files: %s". -/
def listErrMsg (t : List Char) : List Char :=
  "Error listing files: ".toList ++ t

/-- The header "Files in bucket '%s':". -/
def listHeader (bucket : List Char) : List Char :=
  "Files in bucket '".toList ++ bucket ++ '\'' :: [':']

/-- What the paginator yields for one page: its objects, or the error
NextPage returns. -/
abbrev PageResult : Type :=
  Except (List Char) (List ObjMeta)

/-- The paginator loop of listBucketFiles: fetch pages in order, print
every object of each page, and on the first failing page print the
error and exit 1, fetching nothing further.  Returns (exit code,
events, printed entry lines). -/
def listPagesRun (bucket : List Char) (idx : Nat) (pages : List PageResult) :
    Nat × List Event × List (List Char) :=
  match pages with
  | [] => (0, [], [])
  | Except.error e :: _ => (1, [Event.listPage bucket idx], [listErrMsg e])
  | Except.ok items :: rest =>
    let r := listPagesRun bucket (idx + 1) rest
    (r.1, Event.listPage bucket idx :: r.2.1, items.map entryLine ++ r.2.2)

/-- listBucketFiles: the header line, then the paginator loop. -/
def listRun (bucket : List Char) (pages : List PageResult) : RunResult :=
  let r := listPagesRun bucket 0 pages
  { exitCode := r.1, events := r.2.1, output := listHeader bucket :: r.2.2 }

/-! ## Dispatch (main.go lines 88-101) -/

/-- The parsed command-line flags that choose and parameterise the
operation. -/
structure Flags where
  filePath : List Char
  directory : List Char
  listFiles : Bool
  deleteFile : List Char
  overwrite : Bool
  verbose : Bool
deriving DecidableEq

/-- Everything outside the process that one invocation consults. -/
structure Env where
  upload : UploadEnv
  del : DeleteEnv
  pages : List PageResult
  store : Store

/-- "No file specified for upload. ..." guidance when no action flag is
given. -/
def noActionMsg : List Char :=
  "No file specified for upload. Use -file to specify a file or -list to list bucket contents.".toList

/-- The dispatch of main: -list first, then -delete, then the upload
path, which itself requires -file; the remote store is only changed by
the delete path (the claims consult it nowhere else). -/
def mainRun (flags : Flags) (env : Env) (bucket returnurl endpoint : List Char) :
    RunResult × Store :=
  if flags.listFiles = true then (listRun bucket env.pages, env.store)
  else if flags.deleteFile ≠ [] then deleteRun env.del env.store bucket flags.deleteFile
  else if flags.filePath = [] then
    ({ exitCode := 1, events := [], output := [noActionMsg] }, env.store)
  else
    (uploadRun env.upload bucket flags.directory flags.filePath returnurl endpoint
      flags.overwrite flags.verbose, env.store)

/-! ## Helper lemmas, then one theorem per claim of the specification -/

/-! ## Lemmas about the string primitives -/

theorem head_dropWhile_false (p : Char → Bool) :
    ∀ (s : List Char) (a : Char), (s.dropWhile p).head? = some a → p a = false := by
  intro s
  induction s with
  | nil => intro a h; simp [List.dropWhile] at h
  | cons c t ih =>
    intro a h
    by_cases hc : p c = true
    · rw [List.dropWhile_cons, if_pos hc] at h
      exact ih a h
    · rw [List.dropWhile_cons, if_neg hc] at h
      simp only [List.head?_cons, Option.some.injEq] at h
      subst h
      simpa using hc

theorem mem_dropWhile (p : Char → Bool) :
    ∀ (s : List Char) (a : Char), a ∈ s.dropWhile p → a ∈ s := by
  intro s
  induction s with
  | nil => intro a h; simp at h
  | cons c t ih =>
    intro a h
    by_cases hc : p c = true
    · rw [List.dropWhile_cons, if_pos hc] at h
      exact List.mem_cons_of_mem _ (ih a h)
    · rw [List.dropWhile_cons, if_neg hc] at h
      exact h

theorem dropWhile_head_false (p : Char → Bool) (s : List Char) (a : Char)
    (ha : s.head? = some a) (hp : p a = false) : s.dropWhile p = s := by
  cases s with
  | nil => rfl
  | cons c t =>
    simp only [List.head?_cons, Option.some.injEq] at ha
    subst ha
    rw [List.dropWhile_cons, if_neg (by simp [hp])]

theorem dropRightWhile_nil_or_head (p : Char → Bool) :
    ∀ s : List Char, dropRightWhile p s = [] ∨ (dropRightWhile p s).head? = s.head? := by
  intro s
  cases s with
  | nil => left; rfl
  | cons c t =>
    cases hr : dropRightWhile p t with
    | nil =>
      by_cases hc : p c = true
      · left; simp [dropRightWhile, hr, hc]
      · right; simp [dropRightWhile, hr, hc]
    | cons x xs =>
      right; simp [dropRightWhile, hr]

theorem head?_dropRightWhile (p : Char → Bool) (s : List Char) (a : Char)
    (h : (dropRightWhile p s).head? = some a) : s.head? = some a := by
  rcases dropRightWhile_nil_or_head p s with hnil | hhead
  · rw [hnil] at h; simp at h
  · rw [hhead] at h; exact h

theorem mem_dropRightWhile (p : Char → Bool) :
    ∀ (s : List Char) (a : Char), a ∈ dropRightWhile p s → a ∈ s := by
  intro s
  induction s with
  | nil => intro a h; simp [dropRightWhile] at h
  | cons c t ih =>
    intro a h
    cases hr : dropRightWhile p t with
    | nil =>
      rw [dropRightWhile, hr] at h
      by_cases hc : p c = true
      · simp [hc] at h
      · rw [if_neg hc] at h
        simp only [List.mem_singleton] at h
        subst h
        exact List.mem_cons_self _ _
    | cons x xs =>
      rw [dropRightWhile, hr] at h
      have h2 : a ∈ c :: x :: xs := h
      rcases List.mem_cons.mp h2 with h3 | h3
      · subst h3; exact List.mem_cons_self _ _
      · exact List.mem_cons_of_mem _ (ih a (hr ▸ h3))

theorem dropRightWhile_idem (p : Char → Bool) :
    ∀ s : List Char, dropRightWhile p (dropRightWhile p s) = dropRightWhile p s := by
  intro s
  induction s with
  | nil => rfl
  | cons c t ih =>
    cases hr : dropRightWhile p t with
    | nil =>
      by_cases hc : p c = true
      · simp [dropRightWhile, hr, hc]
      · rw [dropRightWhile, hr, if_neg hc]
        simp [dropRightWhile, hc]
    | cons x xs =>
      rw [hr] at ih
      rw [dropRightWhile, hr]
      have h2 : dropRightWhile p (c :: x :: xs) =
          match dropRightWhile p (x :: xs) with
          | [] => if p c then [] else [c]
          | r => c :: r := rfl
      rw [h2, ih]

theorem trimSlashes_head (s : List Char) (a : Char)
    (h : (trimSlashes s).head? = some a) : a ≠ '/' := by
  have h2 := head?_dropRightWhile _ _ _ h
  have h3 := head_dropWhile_false _ _ _ h2
  simpa using h3

theorem mem_trimSlashes (s : List Char) (a : Char) (h : a ∈ trimSlashes s) : a ∈ s :=
  mem_dropWhile _ _ _ (mem_dropRightWhile _ _ _ h)

theorem trimSlashes_idem (s : List Char) : trimSlashes (trimSlashes s) = trimSlashes s := by
  unfold trimSlashes
  have hA : trimLeftSlashes (trimRightSlashes (trimLeftSlashes s)) =
      trimRightSlashes (trimLeftSlashes s) := by
    cases hv : trimRightSlashes (trimLeftSlashes s) with
    | nil => rfl
    | cons a t =>
      have ha : (trimRightSlashes (trimLeftSlashes s)).head? = some a := by rw [hv]; rfl
      have h2 := head?_dropRightWhile _ _ _ ha
      have h3 := head_dropWhile_false _ _ _ h2
      unfold trimLeftSlashes
      rw [← hv]
      exact dropWhile_head_false _ _ a (hv ▸ rfl) h3
  rw [hA]
  exact dropRightWhile_idem _ _

theorem toSlash_id (s : List Char) : toSlash s = s := by
  induction s with
  | nil => rfl
  | cons c t ih =>
    unfold toSlash at ih ⊢
    simp only [List.map_cons, ih]
    by_cases hc : (c == separator) = true
    · simp only [hc, if_true]
      have hcc : c = separator := by simpa using hc
      rw [hcc]
      exact rfl
    · simp [hc]

/-! ## Lemmas about splitSlash, cleanStep, joinSlash, clean -/

theorem splitSlash_ne_nil : ∀ s : List Char, splitSlash s ≠ [] := by
  intro s
  cases s with
  | nil => simp [splitSlash]
  | cons c t =>
    by_cases hc : (c == '/') = true
    · simp [splitSlash, hc]
    · simp only [splitSlash, hc]
      cases hr : splitSlash t with
      | nil => simp
      | cons g gs => simp

theorem splitSlash_cons_ne (c : Char) (t : List Char) (hc : (c == '/') = false)
    (g : List Char) (gs : List (List Char)) (hr : splitSlash t = g :: gs) :
    splitSlash (c :: t) = (c :: g) :: gs := by
  rw [splitSlash, if_neg (by simp [hc]), hr]

theorem mem_splitSlash_no_slash :
    ∀ (s g : List Char), g ∈ splitSlash s → '/' ∉ g := by
  intro s
  induction s with
  | nil =>
    intro g hg
    simp only [splitSlash, List.mem_singleton] at hg
    subst hg; simp
  | cons c t ih =>
    intro g hg
    by_cases hc : (c == '/') = true
    · rw [splitSlash, if_pos hc] at hg
      rcases List.mem_cons.mp hg with h | h
      · subst h; simp
      · exact ih g h
    · cases hr : splitSlash t with
      | nil => exact absurd hr (splitSlash_ne_nil t)
      | cons g0 gs =>
        rw [splitSlash_cons_ne c t (by simpa using hc) g0 gs hr] at hg
        rcases List.mem_cons.mp hg with h | h
        · subst h
          intro hmem
          rcases List.mem_cons.mp hmem with h1 | h1
          · rw [h1] at hc; simp at hc
          · exact ih g0 (hr ▸ List.mem_cons_self g0 gs) h1
        · exact ih g (hr ▸ List.mem_cons_of_mem g0 h)

theorem mem_mem_splitSlash :
    ∀ (s g : List Char) (a : Char), g ∈ splitSlash s → a ∈ g → a ∈ s := by
  intro s
  induction s with
  | nil =>
    intro g a hg ha
    simp only [splitSlash, List.mem_singleton] at hg
    subst hg; simp at ha
  | cons c t ih =>
    intro g a hg ha
    by_cases hc : (c == '/') = true
    · rw [splitSlash, if_pos hc] at hg
      rcases List.mem_cons.mp hg with h | h
      · subst h; simp at ha
      · exact List.mem_cons_of_mem _ (ih g a h ha)
    · cases hr : splitSlash t with
      | nil => exact absurd hr (splitSlash_ne_nil t)
      | cons g0 gs =>
        rw [splitSlash_cons_ne c t (by simpa using hc) g0 gs hr] at hg
        rcases List.mem_cons.mp hg with h | h
        · subst h
          rcases List.mem_cons.mp ha with h1 | h1
          · subst h1; exact List.mem_cons_self _ _
          · exact List.mem_cons_of_mem _ (ih g0 a (hr ▸ List.mem_cons_self g0 gs) h1)
        · exact List.mem_cons_of_mem _ (ih g a (hr ▸ List.mem_cons_of_mem g0 h) ha)

theorem splitSlash_no_slash (s : List Char) (h : '/' ∉ s) : splitSlash s = [s] := by
  induction s with
  | nil => rfl
  | cons c t ih =>
    have hc : (c == '/') = false := by
      have : c ≠ '/' := fun hcc => h (hcc ▸ List.mem_cons_self c t)
      simpa using fun hcc => this (by simpa using hcc)
    have ht : '/' ∉ t := fun hmem => h (List.mem_cons_of_mem c hmem)
    exact splitSlash_cons_ne c t hc t [] (ih ht)

theorem mem_cleanStep (rooted : Bool) (stack : List (List Char)) (c e : List Char)
    (h : e ∈ cleanStep rooted stack c) :
    e = dotdot ∨ e ∈ stack ∨ (e = c ∧ c ≠ []) := by
  unfold cleanStep at h
  by_cases h1 : c = [] ∨ c = ['.']
  · rw [if_pos h1] at h
    exact Or.inr (Or.inl h)
  · rw [if_neg h1] at h
    by_cases h2 : c = dotdot
    · rw [if_pos h2] at h
      cases stack with
      | nil =>
        have h6 : e ∈ (if rooted = true then ([] : List (List Char)) else [dotdot]) := h
        by_cases h3 : rooted = true
        · rw [if_pos h3] at h6; simp at h6
        · rw [if_neg h3] at h6
          simp only [List.mem_singleton] at h6
          exact Or.inl h6
      | cons top rest =>
        have h6 : e ∈ (if top = dotdot then dotdot :: top :: rest else rest) := h
        by_cases h4 : top = dotdot
        · rw [if_pos h4] at h6
          rcases List.mem_cons.mp h6 with h5 | h5
          · exact Or.inl h5
          · exact Or.inr (Or.inl h5)
        · rw [if_neg h4] at h6
          exact Or.inr (Or.inl (List.mem_cons_of_mem top h6))
    · rw [if_neg h2] at h
      rcases List.mem_cons.mp h with h5 | h5
      · refine Or.inr (Or.inr ⟨h5, ?_⟩)
        intro hc; exact h1 (Or.inl hc)
      · exact Or.inr (Or.inl h5)

theorem foldl_cleanStep_inv (rooted : Bool) (P Q : List Char → Prop)
    (hdot : P dotdot) (hpush : ∀ c, Q c → c ≠ [] → P c) :
    ∀ (comps stack : List (List Char)),
      (∀ c ∈ comps, Q c) → (∀ e ∈ stack, P e) →
      ∀ e ∈ comps.foldl (cleanStep rooted) stack, P e := by
  intro comps
  induction comps with
  | nil => intro stack _ hstack e he; exact hstack e he
  | cons c cs ih =>
    intro stack hcomps hstack e he
    rw [List.foldl_cons] at he
    refine ih (cleanStep rooted stack c) (fun x hx => hcomps x (List.mem_cons_of_mem c hx))
      (fun x hx => ?_) e he
    rcases mem_cleanStep rooted stack c x hx with h | h | ⟨h1, h2⟩
    · exact h ▸ hdot
    · exact hstack x h
    · exact h1 ▸ hpush c (hcomps c (List.mem_cons_self c cs)) h2

theorem joinSlash_head (x : List Char) (xs : List (List Char)) (hx : x ≠ []) :
    (joinSlash (x :: xs)).head? = x.head? := by
  cases xs with
  | nil => rfl
  | cons y rest =>
    cases x with
    | nil => exact absurd rfl hx
    | cons a t => rfl

theorem mem_joinSlash :
    ∀ (L : List (List Char)) (a : Char), a ∈ joinSlash L → (∃ e ∈ L, a ∈ e) ∨ a = '/' := by
  intro L
  induction L with
  | nil => intro a h; simp [joinSlash] at h
  | cons x xs ih =>
    intro a h
    cases xs with
    | nil =>
      exact Or.inl ⟨x, List.mem_cons_self x [], h⟩
    | cons y rest =>
      have h2 : a ∈ x ++ '/' :: joinSlash (y :: rest) := h
      rcases List.mem_append.mp h2 with h3 | h3
      · exact Or.inl ⟨x, List.mem_cons_self x _, h3⟩
      · rcases List.mem_cons.mp h3 with h4 | h4
        · exact Or.inr h4
        · rcases ih a h4 with ⟨e, he, hae⟩ | h5
          · exact Or.inl ⟨e, List.mem_cons_of_mem x he, hae⟩
          · exact Or.inr h5

theorem clean_cons_eq (c : Char) (t : List Char) :
    clean (c :: t) =
      (if (c == '/') = true
       then '/' :: joinSlash (((splitSlash (c :: t)).foldl (cleanStep (c == '/')) []).reverse)
       else
         if joinSlash (((splitSlash (c :: t)).foldl (cleanStep (c == '/')) []).reverse) = []
         then ['.']
         else joinSlash (((splitSlash (c :: t)).foldl (cleanStep (c == '/')) []).reverse)) :=
  rfl

theorem clean_head_not_slash (s : List Char) (hs : s ≠ [])
    (hhead : s.head? ≠ some '/') : (clean s).head? ≠ some '/' := by
  cases s with
  | nil => exact absurd rfl hs
  | cons c t =>
    have hc : (c == '/') = false := by
      have hcne : c ≠ '/' := fun h => hhead (by rw [h]; rfl)
      simpa using fun h2 => hcne (by simpa using h2)
    rw [clean_cons_eq, hc, if_neg Bool.false_ne_true]
    have hstack : ∀ e ∈ (splitSlash (c :: t)).foldl (cleanStep false) [], e ≠ [] ∧ '/' ∉ e := by
      refine foldl_cleanStep_inv false (fun e => e ≠ [] ∧ '/' ∉ e) (fun g => '/' ∉ g)
        ⟨by simp [dotdot], by simp [dotdot]⟩ (fun g hg hne => ⟨hne, hg⟩)
        (splitSlash (c :: t)) [] (fun g hg => mem_splitSlash_no_slash (c :: t) g hg)
        (fun e he => absurd he (List.not_mem_nil e))
    cases hrev : ((splitSlash (c :: t)).foldl (cleanStep false) []).reverse with
    | nil =>
      simp [joinSlash]
    | cons x xs =>
      have hxmem : x ∈ (splitSlash (c :: t)).foldl (cleanStep false) [] := by
        have hx2 : x ∈ ((splitSlash (c :: t)).foldl (cleanStep false) []).reverse := by
          rw [hrev]; exact List.mem_cons_self x xs
        exact List.mem_reverse.mp hx2
      obtain ⟨hxne, hxslash⟩ := hstack x hxmem
      have hne : joinSlash (x :: xs) ≠ [] := by
        cases x with
        | nil => exact absurd rfl hxne
        | cons a t2 =>
          cases xs with
          | nil => simp [joinSlash]
          | cons y rest => simp [joinSlash]
      rw [if_neg hne, joinSlash_head x xs hxne]
      cases x with
      | nil => exact absurd rfl hxne
      | cons a t2 =>
        simp only [List.head?_cons, ne_eq, Option.some.injEq]
        intro ha
        exact hxslash (ha ▸ List.mem_cons_self a t2)

theorem mem_clean (s : List Char) (a : Char) (h : a ∈ clean s) :
    a ∈ s ∨ a = '/' ∨ a = '.' := by
  cases s with
  | nil =>
    simp only [clean, List.mem_singleton] at h
    exact Or.inr (Or.inr h)
  | cons c t =>
    rw [clean_cons_eq] at h
    have hstack : ∀ e ∈ (splitSlash (c :: t)).foldl (cleanStep (c == '/')) [],
        ∀ x ∈ e, x ∈ (c :: t) ∨ x = '.' := by
      have hdd : ∀ x ∈ dotdot, x ∈ (c :: t) ∨ x = '.' := by
        intro x hx
        have hx2 : x = '.' := by simpa [dotdot] using hx
        exact Or.inr hx2
      refine foldl_cleanStep_inv (c == '/') (fun e => ∀ x ∈ e, x ∈ (c :: t) ∨ x = '.')
        (fun g => ∀ x ∈ g, x ∈ (c :: t)) hdd
        (fun g hg _ x hx => Or.inl (hg x hx))
        (splitSlash (c :: t)) []
        (fun g hg x hx => mem_mem_splitSlash (c :: t) g x hg hx)
        (fun e he => absurd he (List.not_mem_nil e))
    by_cases hc : (c == '/') = true
    · rw [if_pos hc] at h
      rcases List.mem_cons.mp h with h1 | h1
      · exact Or.inr (Or.inl h1)
      · rcases mem_joinSlash _ a h1 with ⟨e, he, hae⟩ | h2
        · rcases hstack e (List.mem_reverse.mp he) a hae with h3 | h3
          · exact Or.inl h3
          · exact Or.inr (Or.inr h3)
        · exact Or.inr (Or.inl h2)
    · rw [if_neg hc] at h
      by_cases hbody :
          joinSlash (((splitSlash (c :: t)).foldl (cleanStep (c == '/')) []).reverse) = []
      · rw [if_pos hbody] at h
        simp only [List.mem_singleton] at h
        exact Or.inr (Or.inr h)
      · rw [if_neg hbody] at h
        rcases mem_joinSlash _ a h with ⟨e, he, hae⟩ | h2
        · rcases hstack e (List.mem_reverse.mp he) a hae with h3 | h3
          · exact Or.inl h3
          · exact Or.inr (Or.inr h3)
        · exact Or.inr (Or.inl h2)

theorem clean_single (b : List Char) (hne : b ≠ []) (hslash : '/' ∉ b)
    (hdot : b ≠ ['.']) (hdd : b ≠ dotdot) : clean b = b := by
  cases b with
  | nil => exact absurd rfl hne
  | cons c t =>
    have hc : (c == '/') = false := by
      have hcne : c ≠ '/' := fun h => hslash (h ▸ List.mem_cons_self c t)
      simpa using fun h2 => hcne (by simpa using h2)
    rw [clean_cons_eq, hc, if_neg Bool.false_ne_true]
    rw [splitSlash_no_slash (c :: t) hslash]
    have hstep : cleanStep false [] (c :: t) = [c :: t] := by
      unfold cleanStep
      rw [if_neg, if_neg hdd]
      intro h
      rcases h with h | h
      · exact hne h
      · exact hdot h
    simp only [List.foldl_cons, List.foldl_nil, hstep, List.reverse_singleton, joinSlash]
    simp

/-! ## Assembled facts about the computed key -/

theorem computeKey_eq (d b : List Char) :
    computeKey d b = if d = [] then b else filepathJoin (trimSlashes d) b := by
  unfold computeKey
  rw [toSlash_id]

theorem base_head_not_slash (b : List Char) (hbne : b ≠ []) (hbslash : '/' ∉ b) :
    b.head? ≠ some '/' := by
  cases b with
  | nil => exact absurd rfl hbne
  | cons c t =>
    simp only [List.head?_cons, ne_eq, Option.some.injEq]
    intro hc
    exact hbslash (hc ▸ List.mem_cons_self c t)

/-! ## Lemmas about message lines and the list paginator -/

theorem deleteSuccessMsg_ne_deleteErrMsg (k t : List Char) :
    deleteSuccessMsg k ≠ deleteErrMsg t := by
  intro h
  have hS : (deleteSuccessMsg k).head? = some 'S' := rfl
  have hE : (deleteErrMsg t).head? = some 'E' := rfl
  rw [h, hE] at hS
  simp at hS

theorem deleteSuccessMsg_ne_waitErrMsg (k t : List Char) :
    deleteSuccessMsg k ≠ waitErrMsg t := by
  intro h
  have hS : (deleteSuccessMsg k).head? = some 'S' := rfl
  have hE : (waitErrMsg t).head? = some 'E' := rfl
  rw [h, hE] at hS
  simp at hS

theorem listPagesRun_code (bucket : List Char) (good : List (List ObjMeta)) :
    ∀ (idx : Nat) (tail : List PageResult),
      (listPagesRun bucket idx (good.map Except.ok ++ tail)).1 =
        (listPagesRun bucket (idx + good.length) tail).1 := by
  induction good with
  | nil => intro idx tail; simp
  | cons g gs ih =>
    intro idx tail
    have hcons : (g :: gs).map Except.ok ++ tail =
        Except.ok g :: (gs.map Except.ok ++ tail) := rfl
    rw [hcons]
    simp only [listPagesRun]
    rw [ih (idx + 1) tail]
    have harg : idx + 1 + gs.length = idx + (g :: gs).length := by
      simp [List.length_cons]; omega
    rw [harg]

theorem listPagesRun_out (bucket : List Char) (good : List (List ObjMeta)) :
    ∀ (idx : Nat) (tail : List PageResult),
      (listPagesRun bucket idx (good.map Except.ok ++ tail)).2.2 =
        good.flatten.map entryLine ++ (listPagesRun bucket (idx + good.length) tail).2.2 := by
  induction good with
  | nil => intro idx tail; simp
  | cons g gs ih =>
    intro idx tail
    have hcons : (g :: gs).map Except.ok ++ tail =
        Except.ok g :: (gs.map Except.ok ++ tail) := rfl
    rw [hcons]
    simp only [listPagesRun]
    rw [ih (idx + 1) tail]
    have harg : idx + 1 + gs.length = idx + (g :: gs).length := by
      simp [List.length_cons]; omega
    rw [harg, List.flatten_cons, List.map_append, List.append_assoc]

theorem listPagesRun_events (bucket : List Char) :
    ∀ (pages : List PageResult) (idx : Nat) (e : Event),
      e ∈ (listPagesRun bucket idx pages).2.1 → ∃ i, e = Event.listPage bucket i := by
  intro pages
  induction pages with
  | nil => intro idx e he; simp [listPagesRun] at he
  | cons p rest ih =>
    intro idx e he
    cases p with
    | error t =>
      simp only [listPagesRun] at he
      simp only [List.mem_singleton] at he
      exact ⟨idx, he⟩
    | ok items =>
      simp only [listPagesRun] at he
      rcases List.mem_cons.mp he with h | h
      · exact ⟨idx, h⟩
      · exact ih (idx + 1) e h

/-! ## The claims -/

/-- Claim C1: for every -directory value and every local file (through
its base name, which for a regular file is nonempty, slash-free and
neither "." nor ".."), the object key the upload computes has no
leading slash; trimming the directory's surrounding slashes first
leaves the key unchanged (they are trimmed before joining); and the
join introduces only forward-slash separators — a backslash occurs in
the key only when one of the inputs contains one. -/
theorem upload_key_normalized (d b : List Char) (hb : validBaseName b) :
    (computeKey d b).head? ≠ some '/' ∧
    computeKey d b = computeKey (trimSlashes d) b ∧
    ('\\' ∉ d → '\\' ∉ b → '\\' ∉ computeKey d b) := by
  obtain ⟨hbne, hbslash, hbdot, hbdd⟩ := hb
  have hsingle : clean b = b := clean_single b hbne hbslash hbdot hbdd
  refine ⟨?_, ?_, ?_⟩
  · by_cases hd : d = []
    · rw [computeKey_eq, if_pos hd]
      exact base_head_not_slash b hbne hbslash
    · rw [computeKey_eq, if_neg hd]
      unfold filepathJoin
      by_cases ht : trimSlashes d = []
      · rw [if_pos ht, if_neg hbne, hsingle]
        exact base_head_not_slash b hbne hbslash
      · rw [if_neg ht]
        refine clean_head_not_slash _ (by simp) ?_
        cases hu : trimSlashes d with
        | nil => exact absurd hu ht
        | cons a u =>
          have hane : a ≠ '/' := trimSlashes_head d a (by rw [hu]; rfl)
          simp only [List.cons_append, List.head?_cons, ne_eq, Option.some.injEq]
          exact hane
  · by_cases hd : d = []
    · rw [hd]
      exact rfl
    · rw [computeKey_eq d b, computeKey_eq (trimSlashes d) b, if_neg hd]
      by_cases ht : trimSlashes d = []
      · rw [ht, if_pos rfl]
        unfold filepathJoin
        rw [if_pos rfl, if_neg hbne, hsingle]
      · rw [if_neg ht, trimSlashes_idem]
  · intro hdmem hbmem hkey
    rw [computeKey_eq] at hkey
    by_cases hd : d = []
    · rw [if_pos hd] at hkey
      exact hbmem hkey
    · rw [if_neg hd] at hkey
      unfold filepathJoin at hkey
      by_cases ht : trimSlashes d = []
      · rw [if_pos ht, if_neg hbne, hsingle] at hkey
        exact hbmem hkey
      · rw [if_neg ht] at hkey
        rcases mem_clean _ _ hkey with h1 | h1 | h1
        · rcases List.mem_append.mp h1 with h2 | h2
          · exact hdmem (mem_trimSlashes d '\\' h2)
          · rcases List.mem_cons.mp h2 with h3 | h3
            · exact absurd h3 (by decide)
            · exact hbmem h3
        · exact absurd h1 (by decide)
        · exact absurd h1 (by decide)

/-- Witness for C1 at directory "/pics/" and base name "photo.png". -/
theorem upload_key_normalized_w :
    (computeKey "/pics/".toList "photo.png".toList).head? ≠ some '/' ∧
    computeKey "/pics/".toList "photo.png".toList =
      computeKey (trimSlashes "/pics/".toList) "photo.png".toList ∧
    ('\\' ∉ "/pics/".toList → '\\' ∉ "photo.png".toList →
      '\\' ∉ computeKey "/pics/".toList "photo.png".toList) :=
  upload_key_normalized "/pics/".toList "photo.png".toList (by decide)

/-- Claim C2: the reported URL is the configured return URL with
trailing slashes trimmed, a single '/', and the key with leading
slashes trimmed; with returnurl https cdn.example.com, file photo.png
and directory /pics, the reported URL is the expected concatenation. -/
theorem upload_url_report :
    (∀ returnurl key : List Char,
      fullURL returnurl key = trimRightSlashes returnurl ++ '/' :: trimLeftSlashes key) ∧
    fullURL "https://cdn.example.com".toList
        (computeKey "/pics".toList "photo.png".toList) =
      "https://cdn.example.com/pics/photo.png".toList := by
  refine ⟨fun r k => rfl, by decide⟩

/-- Claim C3: when os.Stat reports the local file missing, the upload
exits with code 1, prints the file-not-found message, and issues no
remote call at all (the event list is empty). -/
theorem upload_missing_file_stops (env : UploadEnv)
    (bucket directory filePath returnurl endpoint : List Char)
    (overwrite verbose : Bool) (h : env.statExists = false) :
    (uploadRun env bucket directory filePath returnurl endpoint overwrite verbose).exitCode = 1 ∧
    (uploadRun env bucket directory filePath returnurl endpoint overwrite verbose).events = [] ∧
    (uploadRun env bucket directory filePath returnurl endpoint overwrite verbose).output =
      [fileNotExistMsg filePath] := by
  simp [uploadRun, h]

/-- Witness for C3 at a concrete environment. -/
theorem upload_missing_file_stops_w :
    (uploadRun ⟨false, true, [], "f.txt".toList, HeadResult.absent, true, [], []⟩
      "b".toList [] "f.txt".toList [] [] false false).exitCode = 1 ∧
    (uploadRun ⟨false, true, [], "f.txt".toList, HeadResult.absent, true, [], []⟩
      "b".toList [] "f.txt".toList [] [] false false).events = [] ∧
    (uploadRun ⟨false, true, [], "f.txt".toList, HeadResult.absent, true, [], []⟩
      "b".toList [] "f.txt".toList [] [] false false).output =
      [fileNotExistMsg "f.txt".toList] :=
  upload_missing_file_stops _ _ _ _ _ _ _ _ rfl

/-- Claim C4: with -overwrite unset and HeadObject reporting the object
present, a non-affirmative answer to the prompt exits with code 0,
performs no PutObject call, and prints the cancellation message. -/
theorem upload_decline_aborts (env : UploadEnv)
    (bucket directory filePath returnurl endpoint : List Char) (verbose : Bool)
    (hstat : env.statExists = true) (hopen : env.openOk = true)
    (hhead : env.head = HeadResult.present)
    (hresp : isAffirmative env.stdinLine = false) :
    (uploadRun env bucket directory filePath returnurl endpoint false verbose).exitCode = 0 ∧
    (∀ b2 k2, Event.putObject b2 k2 ∉
      (uploadRun env bucket directory filePath returnurl endpoint false verbose).events) ∧
    (uploadRun env bucket directory filePath returnurl endpoint false verbose).output =
      [promptMsg, uploadCancelledMsg] := by
  simp [uploadRun, hstat, hopen, hhead, hresp]

/-- Witness for C4: answering "no" declines. -/
theorem upload_decline_aborts_w :
    (uploadRun ⟨true, true, [], "f.txt".toList, HeadResult.present, true, [], "no".toList⟩
      "b".toList [] "f.txt".toList [] [] false false).exitCode = 0 ∧
    (∀ b2 k2, Event.putObject b2 k2 ∉
      (uploadRun ⟨true, true, [], "f.txt".toList, HeadResult.present, true, [], "no".toList⟩
        "b".toList [] "f.txt".toList [] [] false false).events) ∧
    (uploadRun ⟨true, true, [], "f.txt".toList, HeadResult.present, true, [], "no".toList⟩
      "b".toList [] "f.txt".toList [] [] false false).output =
      [promptMsg, uploadCancelledMsg] :=
  upload_decline_aborts _ _ _ _ _ _ _ rfl rfl rfl (by decide)

/-- Claim C5: with -overwrite set, no outcome of the existence check
(present, absent or failed check) blocks the upload: PutObject is
always attempted and the prompt never occurs. -/
theorem upload_overwrite_unblocked (env : UploadEnv)
    (bucket directory filePath returnurl endpoint : List Char) (verbose : Bool)
    (hstat : env.statExists = true) (hopen : env.openOk = true) :
    Event.putObject bucket (computeKey directory env.baseName) ∈
      (uploadRun env bucket directory filePath returnurl endpoint true verbose).events ∧
    Event.prompt ∉
      (uploadRun env bucket directory filePath returnurl endpoint true verbose).events := by
  cases hput : env.putOk <;>
    simp [uploadRun, uploadPut, hstat, hopen, hput]

/-- Witness for C5 with the object present and PutObject failing — the
write is still attempted and no prompt occurs. -/
theorem upload_overwrite_unblocked_w :
    Event.putObject "b".toList (computeKey "d".toList "f.txt".toList) ∈
      (uploadRun ⟨true, true, [], "f.txt".toList, HeadResult.present, false, [], []⟩
        "b".toList "d".toList "f.txt".toList [] [] true false).events ∧
    Event.prompt ∉
      (uploadRun ⟨true, true, [], "f.txt".toList, HeadResult.present, false, [], []⟩
        "b".toList "d".toList "f.txt".toList [] [] true false).events :=
  upload_overwrite_unblocked _ _ _ _ _ _ _ rfl rfl

/-- Claim C6 as stated is false: strings.TrimPrefix(filePath, "/")
strips only one leading "/", so deleting "//a" sends the key "/a",
which begins with a slash. -/
theorem delete_key_leading_slash_cex :
    trimPrefixSlash "//a".toList = "/a".toList ∧
    ((deleteRun ⟨true, [], true, []⟩ ⟨[]⟩ "b".toList "//a".toList).1.events).head? =
      some (Event.deleteObject "b".toList "/a".toList) ∧
    ("/a".toList).head? = some '/' := by
  decide

/-- Claim C6 amended: exactly one leading slash is stripped before the
delete request is issued (the delete event always carries the stripped
key), and the key sent has no leading slash provided the input does not
begin with two slashes. -/
theorem delete_key_strips_one_slash (fp : List Char)
    (h : fp.head? = some '/' → fp.tail.head? ≠ some '/') :
    (trimPrefixSlash fp).head? ≠ some '/' ∧
    (∀ t : List Char, trimPrefixSlash ('/' :: t) = t) ∧
    (∀ (env : DeleteEnv) (store : Store) (bucket : List Char),
      ((deleteRun env store bucket fp).1.events).head? =
        some (Event.deleteObject bucket (trimPrefixSlash fp))) := by
  refine ⟨?_, fun t => rfl, ?_⟩
  · cases fp with
    | nil => simp [trimPrefixSlash]
    | cons c t =>
      by_cases hc : c = '/'
      · subst hc
        have h2 := h rfl
        simpa [trimPrefixSlash] using h2
      · have heq : trimPrefixSlash (c :: t) = c :: t := by
          unfold trimPrefixSlash
          split
          · next rest heq2 =>
            injection heq2 with h1 h2
            exact absurd h1 hc
          · rfl
        rw [heq]
        simp only [List.head?_cons, ne_eq, Option.some.injEq]
        exact hc
  · intro env store bucket
    unfold deleteRun
    by_cases hdel : env.deleteOk = false
    · rw [if_pos hdel]
      rfl
    · rw [if_neg hdel]
      dsimp only
      split <;> rfl

/-- Witness for C6's amended statement at the input "/a". -/
theorem delete_key_strips_one_slash_w :
    (trimPrefixSlash "/a".toList).head? ≠ some '/' ∧
    (∀ t : List Char, trimPrefixSlash ('/' :: t) = t) ∧
    (∀ (env : DeleteEnv) (store : Store) (bucket : List Char),
      ((deleteRun env store bucket "/a".toList).1.events).head? =
        some (Event.deleteObject bucket (trimPrefixSlash "/a".toList))) :=
  delete_key_strips_one_slash "/a".toList (by decide)

/-- Claim C7: the delete reports success exactly when both the delete
request and the waiter succeed; any failure exits 1 without the success
message; and success implies the key is absent from the resulting
store, so a list over any pagination of that store does not show it. -/
theorem delete_success_only_after_absence (env : DeleteEnv) (store : Store)
    (bucket fp : List Char) :
    ((deleteRun env store bucket fp).1.exitCode = 0 ↔
      env.deleteOk = true ∧ env.waitOk = true) ∧
    ((deleteRun env store bucket fp).1.exitCode ≠ 0 →
      (deleteRun env store bucket fp).1.exitCode = 1 ∧
      deleteSuccessMsg (trimPrefixSlash fp) ∉ (deleteRun env store bucket fp).1.output) ∧
    ((deleteRun env store bucket fp).1.exitCode = 0 →
      deleteSuccessMsg (trimPrefixSlash fp) ∈ (deleteRun env store bucket fp).1.output ∧
      trimPrefixSlash fp ∉ ((deleteRun env store bucket fp).2).objects) ∧
    (∀ pages : List (List ObjMeta),
      pages.flatten.map ObjMeta.key = ((deleteRun env store bucket fp).2).objects →
      (deleteRun env store bucket fp).1.exitCode = 0 →
      trimPrefixSlash fp ∉ pages.flatten.map ObjMeta.key) := by
  have hfilter : trimPrefixSlash fp ∉
      store.objects.filter (fun k => !(k == trimPrefixSlash fp)) := by
    simp [List.mem_filter]
  by_cases hdel : env.deleteOk = false
  · simp only [deleteRun, if_pos hdel]
    refine ⟨by simp [hdel], fun _ => ⟨by simp, ?_⟩, by simp, ?_⟩
    · simp only [List.mem_singleton]
      exact deleteSuccessMsg_ne_deleteErrMsg _ _
    · intro pages _ h0
      simp at h0
  · have hdel2 : env.deleteOk = true := by simpa using hdel
    by_cases hw : env.waitOk = false
    · simp only [deleteRun, if_neg hdel, hw]
      simp only [or_true, if_true]
      refine ⟨by simp [hw], fun _ => ⟨by simp, ?_⟩, by simp, ?_⟩
      · simp only [List.mem_singleton]
        exact deleteSuccessMsg_ne_waitErrMsg _ _
      · intro pages _ h0
        simp at h0
    · have hw2 : env.waitOk = true := by simpa using hw
      have hcond : ¬(trimPrefixSlash fp ∈
          store.objects.filter (fun k => !(k == trimPrefixSlash fp)) ∨
          env.waitOk = false) := by
        rintro (hmem | hfalse)
        · exact hfilter hmem
        · exact hw hfalse
      simp only [deleteRun, if_neg hdel]
      rw [if_neg hcond]
      refine ⟨by simp [hdel2, hw2], by simp, fun _ => ⟨by simp, hfilter⟩, ?_⟩
      intro pages hp _
      rw [hp]
      exact hfilter

/-- Claim C8: the list operation emits every object of every page (key,
size and timestamp in the entry line) when all pages succeed, and on
the first failing page prints the error and exits 1 with no entry from
any later page; the timestamp is rendered as YYYY-MM-DD HH:MM:SS. -/
theorem list_emits_all_pages_and_aborts (bucket errText : List Char)
    (good : List (List ObjMeta)) (rest : List PageResult) :
    (listRun bucket (good.map Except.ok)).exitCode = 0 ∧
    (listRun bucket (good.map Except.ok)).output =
      listHeader bucket :: good.flatten.map entryLine ∧
    (listRun bucket (good.map Except.ok ++ Except.error errText :: rest)).exitCode = 1 ∧
    (listRun bucket (good.map Except.ok ++ Except.error errText :: rest)).output =
      listHeader bucket :: (good.flatten.map entryLine ++ [listErrMsg errText]) ∧
    formatTimestamp ⟨2024, 3, 7, 9, 5, 2⟩ = "2024-03-07 09:05:02".toList := by
  refine ⟨?_, ?_, ?_, ?_, by decide⟩
  · show (listPagesRun bucket 0 (good.map Except.ok)).1 = 0
    rw [← List.append_nil (good.map Except.ok), listPagesRun_code]
    rfl
  · show listHeader bucket :: (listPagesRun bucket 0 (good.map Except.ok)).2.2 = _
    rw [← List.append_nil (good.map Except.ok), listPagesRun_out]
    simp [listPagesRun]
  · show (listPagesRun bucket 0 (good.map Except.ok ++ Except.error errText :: rest)).1 = 1
    rw [listPagesRun_code]
    rfl
  · show listHeader bucket ::
        (listPagesRun bucket 0 (good.map Except.ok ++ Except.error errText :: rest)).2.2 = _
    rw [listPagesRun_out]
    rfl

/-- Claim C9: the dispatch performs exactly one operation with
precedence -list over -delete over upload: with -list set the run is
the list operation and no delete or put call is ever issued; with
-list unset and -delete given, the run is exactly the delete; with
neither, a given -file runs the upload. -/
theorem dispatch_precedence (flags : Flags) (env : Env)
    (bucket returnurl endpoint : List Char) :
    (flags.listFiles = true →
      (mainRun flags env bucket returnurl endpoint).1 = listRun bucket env.pages ∧
      (∀ b2 k2, Event.deleteObject b2 k2 ∉
        (mainRun flags env bucket returnurl endpoint).1.events) ∧
      (∀ b2 k2, Event.putObject b2 k2 ∉
        (mainRun flags env bucket returnurl endpoint).1.events)) ∧
    (flags.listFiles = false → flags.deleteFile ≠ [] →
      mainRun flags env bucket returnurl endpoint =
        deleteRun env.del env.store bucket flags.deleteFile) ∧
    (flags.listFiles = false → flags.deleteFile = [] → flags.filePath ≠ [] →
      (mainRun flags env bucket returnurl endpoint).1 =
        uploadRun env.upload bucket flags.directory flags.filePath returnurl endpoint
          flags.overwrite flags.verbose) := by
  refine ⟨fun hl => ⟨?_, ?_, ?_⟩, fun hl hd => ?_, fun hl hd hf => ?_⟩
  · simp [mainRun, hl]
  · intro b2 k2 hmem
    simp only [mainRun, hl, if_pos rfl] at hmem
    obtain ⟨i, hi⟩ := listPagesRun_events bucket env.pages 0 _ hmem
    simp at hi
  · intro b2 k2 hmem
    simp only [mainRun, hl, if_pos rfl] at hmem
    obtain ⟨i, hi⟩ := listPagesRun_events bucket env.pages 0 _ hmem
    simp at hi
  · simp [mainRun, hl, hd]
  · simp [mainRun, hl, hd, hf]

/-- Claim C10: the upload proceeds past the prompt exactly when the
response, surrounding whitespace trimmed and lowercased, is the exact
string "y"; "yes" and the empty line decline, and a padded upper-case
"Y" is accepted. -/
theorem prompt_affirmative_exact_y (env : UploadEnv)
    (bucket directory filePath returnurl endpoint : List Char) (verbose : Bool)
    (hstat : env.statExists = true) (hopen : env.openOk = true)
    (hhead : env.head = HeadResult.present) :
    ((∃ b2 k2, Event.putObject b2 k2 ∈
        (uploadRun env bucket directory filePath returnurl endpoint false verbose).events) ↔
      isAffirmative env.stdinLine = true) ∧
    (isAffirmative env.stdinLine = true ↔
      goToLower (goTrimSpace env.stdinLine) = ['y']) ∧
    isAffirmative "yes".toList = false ∧
    isAffirmative [] = false ∧
    isAffirmative " Y\n".toList = true := by
  refine ⟨?_, ?_, by decide, by decide, by decide⟩
  · by_cases hresp : isAffirmative env.stdinLine = true
    · refine ⟨fun _ => hresp, fun _ => ?_⟩
      refine ⟨bucket, computeKey directory env.baseName, ?_⟩
      cases hput : env.putOk <;>
        simp [uploadRun, uploadPut, hstat, hopen, hhead, hresp, hput]
    · have hrespf : isAffirmative env.stdinLine = false := by simpa using hresp
      simp [uploadRun, hstat, hopen, hhead, hrespf]
  · simp [isAffirmative]

/-- Witness for C10: with the answer " Y\n" the write is attempted. -/
theorem prompt_affirmative_exact_y_w :
    ((∃ b2 k2, Event.putObject b2 k2 ∈
        (uploadRun ⟨true, true, [], "f.txt".toList, HeadResult.present, true, [], " Y\n".toList⟩
          "b".toList [] "f.txt".toList [] [] false false).events) ↔
      isAffirmative " Y\n".toList = true) ∧
    (isAffirmative " Y\n".toList = true ↔
      goToLower (goTrimSpace " Y\n".toList) = ['y']) ∧
    isAffirmative "yes".toList = false ∧
    isAffirmative [] = false ∧
    isAffirmative " Y\n".toList = true :=
  prompt_affirmative_exact_y _ _ _ _ _ _ _ rfl rfl rfl

end S3Client
